import Mathlib

/-!
Verification development for the `RangedTree` component of the xregex
repository (`src/inc/xregex/common/RangedTree.hpp` and the implementation
fragments in `src/unnamed/`).

The repository ships the full header (declarations and node-constructor /
copy-constructor bodies) but the algorithmic member functions
(`contains`, `_insert`, `recalc_height`, `balance_factor`, `rotate_left`,
`rotate_right`, tree-level copy and move) exist only as declarations.
Definitions below that embed such missing members are modelled from the
specification and carry a doc comment beginning `Modelled from the spec:`.
Definitions embedding code that is present in `src/` are translated from
that code directly.
-/

namespace XRegex

/-- Spec-level node kind: a `Point` entry, a lower range fence, or an upper
range fence (spec §3, "kind: one of {Point, LowerFence, UpperFence}"). -/
inductive NodeKind : Type where
  | point : NodeKind
  | lowerFence : NodeKind
  | upperFence : NodeKind
deriving DecidableEq, Repr

/-- Modelled from the spec: the tree of `RangedTreeNode`s.  Each node stores
its key (always present, always used for ordering), its kind, and its stored
subtree height (`_tree_height` in the source); `leaf` is the absent child.
The node's `parent` back-reference is pure metadata (spec §3, §9) and is not
part of the functional tree; it is modelled separately in the heap model
used for the copy-constructor claims. -/
inductive RTree (α : Type) : Type where
  | leaf : RTree α
  | node : RTree α → α → NodeKind → Nat → RTree α → RTree α
deriving DecidableEq, Repr

variable {α : Type}

/-- Stored height of a subtree: the `_tree_height` field for a node, 0 for an
absent child (spec §3: "leaf = 1; empty subtree = 0"). -/
def height : RTree α → Nat
  | .leaf => 0
  | .node _ _ _ h _ => h

/-- Modelled from the spec: build a node and recompute its stored height as
`1 + max(height(left), height(right))` (spec §3 invariant; the source only
declares `recalc_height`). -/
def mkNode (l : RTree α) (k : α) (kd : NodeKind) (r : RTree α) : RTree α :=
  .node l k kd (1 + max (height l) (height r)) r

/-- Modelled from the spec: `balance_factor` is `height(right) − height(left)`
(spec glossary; the source declares `balance_factor` without a body). -/
def balance_factor : RTree α → Int
  | .leaf => 0
  | .node l _ _ _ r => (height r : Int) - (height l : Int)

/-- Modelled from the spec: left rotation (spec §4.3) — the right child
becomes the subtree root, the former root becomes its left child, and the
heights of the reshaped nodes are recomputed bottom-up.  A tree with no
right child is returned unchanged (the rebalancer never calls it there). -/
def rotate_left : RTree α → RTree α
  | .node l k kd _ (.node rl rk rkd _ rr) => mkNode (mkNode l k kd rl) rk rkd rr
  | t => t

/-- Modelled from the spec: right rotation (spec §4.3), mirror image of
`rotate_left`. -/
def rotate_right : RTree α → RTree α
  | .node (.node ll lk lkd _ lr) k kd _ r => mkNode ll lk lkd (mkNode lr k kd r)
  | t => t

/-- Modelled from the spec: the AVL repair step applied at one node after its
height has been recomputed (spec §4.3).  Right-heavy by two with a
right child that is right-heavy or balanced: single `rotate_left`; right-heavy
with a left-heavy right child: `rotate_right` on the child then `rotate_left`;
the left-heavy cases are symmetric; otherwise the node is left unchanged. -/
def rebalance (t : RTree α) : RTree α :=
  match t with
  | .leaf => .leaf
  | .node l k kd h r =>
    if height l + 1 < height r then
      match r with
      | .node rl _ _ _ rr =>
        if height rr < height rl then rotate_left (.node l k kd h (rotate_right r))
        else rotate_left (.node l k kd h r)
      | .leaf => .node l k kd h r
    else if height r + 1 < height l then
      match l with
      | .node ll _ _ _ lr =>
        if height ll < height lr then rotate_right (.node (rotate_left l) k kd h r)
        else rotate_right (.node l k kd h r)
      | .leaf => .node l k kd h r
    else .node l k kd h r

/-- The two failure kinds of `insert` (spec §7). -/
inductive InsertError : Type where
  | invalidRange : InsertError
  | overlappingRange : InsertError
deriving DecidableEq, Repr

variable [LinearOrder α]

/-- Modelled from the spec: ordered-tree insertion of one keyed node of a
given kind, with ancestor rebalancing (spec §4.2 steps shared by points and
fences; the source declares `_insert` without a body).  An equal key of the
same kind is an idempotent no-op; an equal key of a different kind fails with
`OverlappingRangeError`; otherwise the key descends by comparison, a fresh
leaf of height 1 is created, and every node on the path back up has its
height recomputed and the AVL repair applied. -/
def insertNode (x : α) (kd : NodeKind) : RTree α → Except InsertError (RTree α)
  | .leaf => .ok (.node .leaf x kd 1 .leaf)
  | .node l k kk h r =>
    if x = k then
      if kd = kk then .ok (.node l k kk h r) else .error .overlappingRange
    else if x < k then
      match insertNode x kd l with
      | .error e => .error e
      | .ok l2 => .ok (rebalance (mkNode l2 k kk r))
    else
      match insertNode x kd r with
      | .error e => .error e
      | .ok r2 => .ok (rebalance (mkNode l k kk r2))

/-- An entry to insert: the `Entry` variant of the source
(`SingleEntry` or `RangedEntry`). -/
inductive Entry (α : Type) : Type where
  | single : α → Entry α
  | ranged : α → α → Entry α
deriving DecidableEq, Repr

/-- Modelled from the spec: `insert` (spec §4.2).  A point inserts one
`Point` node.  A range first validates `start ≤ end` (`InvalidRangeError`
otherwise, before any mutation), then inserts a `LowerFence` at `start` and
an `UpperFence` at `end`; if either boundary collides with a node of a
different kind the whole operation fails with `OverlappingRangeError` and no
partial state survives (all-or-nothing, spec §4.2/§7). -/
def insertEntry (ent : Entry α) (t : RTree α) : Except InsertError (RTree α) :=
  match ent with
  | .single v => insertNode v .point t
  | .ranged s e =>
    if e < s then .error .invalidRange
    else
      match insertNode s .lowerFence t with
      | .error er => .error er
      | .ok t1 =>
        match insertNode e .upperFence t1 with
        | .error er => .error er
        | .ok t2 => .ok t2

/-- The tree state after an `insert` call: the new tree on success, the
untouched pre-call tree on failure (spec §7: failures leave the tree
exactly as it was before the call). -/
def insertTree (ent : Entry α) (t : RTree α) : RTree α :=
  match insertEntry ent t with
  | .ok t2 => t2
  | .error _ => t

/-- The tree after a sequence of `insert` calls, applied in order
(spec §6: construction applies repeated `insert` calls in sequence order). -/
def applyInserts (es : List (Entry α)) (t : RTree α) : RTree α :=
  es.foldl (fun acc e => insertTree e acc) t

/-- Modelled from the spec: the containment-query descent (spec §4.4).
`p` is the kind of the tight predecessor abandoned so far while descending
right, `s` the kind of the tight successor abandoned while descending left.
An exact key hit returns true; at the bottom the verdict is taken from the
accumulated neighbours. -/
def containsFrom (x : α) : RTree α → Option NodeKind → Option NodeKind → Bool
  | .leaf, p, s =>
    match p with
    | some .lowerFence =>
      match s with
      | none => true
      | some .upperFence => true
      | some _ => false
    | _ => false
  | .node l k kd _ r, p, s =>
    if x = k then true
    else if x < k then containsFrom x l p (some kd)
    else containsFrom x r (some kd) s

/-- Modelled from the spec: `contains(x)` (spec §4.4; the source declares
`RangedTree::contains` without a body). -/
def contains (x : α) (t : RTree α) : Bool :=
  containsFrom x t none none

/-- Whether the search descent finds a node with `key == x` (spec §4.4
step 2). -/
def findKey (x : α) : RTree α → Bool
  | .leaf => false
  | .node l k _ _ r =>
    if x = k then true else if x < k then findKey x l else findKey x r

/-- The kind of the tight predecessor on the search path for `x`: the last
node with `key < x` abandoned while descending right (spec §4.4 step 3). -/
def tightPred (x : α) : RTree α → Option NodeKind
  | .leaf => none
  | .node l k kd _ r =>
    if x = k then none
    else if x < k then tightPred x l
    else Option.or (tightPred x r) (some kd)

/-- The kind of the tight successor on the search path for `x`: the last
node with `key > x` abandoned while descending left (spec §4.4 step 3). -/
def tightSucc (x : α) : RTree α → Option NodeKind
  | .leaf => none
  | .node l k kd _ r =>
    if x = k then none
    else if x < k then Option.or (tightSucc x l) (some kd)
    else tightSucc x r

/-- The membership verdict from tight-neighbour kinds (spec §4.4 step 4):
true iff the predecessor exists and is a `LowerFence`, and the successor is
absent or an `UpperFence`. -/
def fenceVerdict : Option NodeKind → Option NodeKind → Bool
  | some .lowerFence, none => true
  | some .lowerFence, some .upperFence => true
  | _, _ => false

/-- The in-order sequence of `(key, kind)` pairs of the tree. -/
def inorder : RTree α → List (α × NodeKind)
  | .leaf => []
  | .node l k kd _ r => inorder l ++ (k, kd) :: inorder r

/-- The in-order key sequence of the tree. -/
def keys (t : RTree α) : List α :=
  (inorder t).map Prod.fst

/-- Search-based lookup of the kind stored at key `x` (the descent used by
both insertion conflict detection and the containment query). -/
def kindAt (x : α) : RTree α → Option NodeKind
  | .leaf => none
  | .node l k kd _ r =>
    if x = k then some kd else if x < k then kindAt x l else kindAt x r

/-- Every key of the tree satisfies `p`. -/
def allKeys (p : α → Bool) : RTree α → Bool
  | .leaf => true
  | .node l k _ _ r => p k && allKeys p l && allKeys p r

/-- The strict binary-search-tree invariant over keys, across all node kinds
(spec §3). -/
def isBST : RTree α → Bool
  | .leaf => true
  | .node l k _ _ r =>
    allKeys (fun a => decide (a < k)) l && allKeys (fun a => decide (k < a)) r
      && isBST l && isBST r

/-- Every stored height equals `1 + max(height(left), height(right))`, with
an absent child counted as 0 (spec §3 invariant). -/
def heightsOk : RTree α → Bool
  | .leaf => true
  | .node l _ _ h r =>
    (h == 1 + max (height l) (height r)) && heightsOk l && heightsOk r

/-- The AVL balance invariant: at every node the child heights differ by at
most one (spec §3 invariant). -/
def balancedB : RTree α → Bool
  | .leaf => true
  | .node l _ _ _ r =>
    (decide (height l ≤ height r + 1) && decide (height r ≤ height l + 1))
      && balancedB l && balancedB r

/-- Modelled from the spec: tree move (spec §4.5 "transfer the root
pointer; source becomes an empty tree"; the source only declares the
tree-level move constructor).  Returns the pair
(destination tree, source tree after the move). -/
def moveTree (t : RTree α) : RTree α × RTree α :=
  (t, RTree.leaf)

/-! ### Basic lemmas about the containment descent -/

lemma containsFrom_leaf (x : α) (p s : Option NodeKind) :
    containsFrom x (.leaf : RTree α) p s = fenceVerdict p s := by
  rcases p with _ | kp
  · rfl
  · rcases s with _ | ks
    · cases kp <;> rfl
    · cases kp <;> cases ks <;> rfl

lemma containsFrom_eq_path (x : α) (t : RTree α) :
    ∀ p s : Option NodeKind,
      containsFrom x t p s =
        (findKey x t ||
          fenceVerdict ((tightPred x t).or p) ((tightSucc x t).or s)) := by
  induction t with
  | leaf =>
    intro p s
    simp [containsFrom_leaf, findKey, tightPred, tightSucc]
  | node l k kd h r ihl ihr =>
    intro p s
    by_cases hx : x = k
    · simp [containsFrom, findKey, hx]
    · by_cases hlt : x < k
      · simp only [containsFrom, findKey, tightPred, tightSucc, hx, hlt,
          if_false, if_true, if_neg, if_pos, ihl]
        rw [Option.or_assoc, Option.or_some]
      · simp only [containsFrom, findKey, tightPred, tightSucc, hx, hlt,
          if_false, if_neg, ihr]
        rw [Option.or_assoc, Option.or_some]

/-- C1: `contains(x)` returns true exactly when the search finds a node with
`key == x` (of any kind), or otherwise when the tight predecessor on the
search path exists with kind `LowerFence` and the tight successor is absent
or of kind `UpperFence`; every other combination yields false. -/
theorem contains_matches_path_semantics (x : α) (t : RTree α) :
    contains x t = (findKey x t || fenceVerdict (tightPred x t) (tightSucc x t)) := by
  have h := containsFrom_eq_path x t none none
  simpa [contains, Option.or_none] using h

/-! ### C4: invalid ranges -/

/-- C4: inserting a range with `start > end` fails with `InvalidRangeError`
before any mutation: the post-call tree is exactly the pre-call tree and
every `contains` result is unchanged. -/
theorem insert_invalid_range_no_mutation (t : RTree α) (s e : α) (h : e < s) :
    insertEntry (Entry.ranged s e) t = .error .invalidRange ∧
    insertTree (Entry.ranged s e) t = t ∧
    ∀ x, contains x (insertTree (Entry.ranged s e) t) = contains x t := by
  have h1 : insertEntry (Entry.ranged s e) t = .error .invalidRange := by
    simp [insertEntry, h]
  refine ⟨h1, ?_, ?_⟩
  · simp [insertTree, h1]
  · intro x; simp [insertTree, h1]

/-- Witness for C4 at a concrete input: the range `(5, 2)` on the empty tree
over `Nat`. -/
theorem insert_invalid_range_no_mutation_witness :
    insertEntry (Entry.ranged 5 2) (RTree.leaf : RTree Nat) = .error .invalidRange ∧
    insertTree (Entry.ranged 5 2) (RTree.leaf : RTree Nat) = RTree.leaf ∧
    ∀ x, contains x (insertTree (Entry.ranged 5 2) (RTree.leaf : RTree Nat)) =
      contains x (RTree.leaf : RTree Nat) :=
  insert_invalid_range_no_mutation RTree.leaf 5 2 (by decide)

/-! ### Rotations and rebalancing preserve the in-order sequence -/

omit [LinearOrder α] in
lemma inorder_rotate_left (t : RTree α) : inorder (rotate_left t) = inorder t := by
  cases t with
  | leaf => rfl
  | node l k kd h r =>
    cases r with
    | leaf => rfl
    | node rl rk rkd rh rr => simp [rotate_left, mkNode, inorder, List.append_assoc]

omit [LinearOrder α] in
lemma inorder_rotate_right (t : RTree α) : inorder (rotate_right t) = inorder t := by
  cases t with
  | leaf => rfl
  | node l k kd h r =>
    cases l with
    | leaf => rfl
    | node ll lk lkd lh lr => simp [rotate_right, mkNode, inorder, List.append_assoc]

omit [LinearOrder α] in
lemma inorder_rebalance (t : RTree α) : inorder (rebalance t) = inorder t := by
  cases t with
  | leaf => rfl
  | node l k kd h r =>
    simp only [rebalance]
    by_cases h1 : height l + 1 < height r
    · simp only [if_pos h1]
      cases r with
      | leaf => rfl
      | node rl rk rkd rh rr =>
        by_cases h2 : height rr < height rl
        · simp only [if_pos h2, inorder_rotate_left, inorder]
          rw [inorder_rotate_right]
          simp [inorder]
        · simp only [if_neg h2, inorder_rotate_left]
    · simp only [if_neg h1]
      by_cases h3 : height r + 1 < height l
      · simp only [if_pos h3]
        cases l with
        | leaf => rfl
        | node ll lk lkd lh lr =>
          by_cases h4 : height ll < height lr
          · simp only [if_pos h4, inorder_rotate_right, inorder]
            rw [inorder_rotate_left]
            simp [inorder]
          · simp only [if_neg h4, inorder_rotate_right]
      · simp only [if_neg h3]

omit [LinearOrder α] in
/-- C6: rotations (and the rebalancing step built from them) are pure
structural re-shapings: the in-order `(key, kind)` sequence — and therefore
the multiset of `(key, kind)` pairs — is exactly preserved. -/
theorem rotations_preserve_inorder (t : RTree α) :
    inorder (rotate_left t) = inorder t ∧
    inorder (rotate_right t) = inorder t ∧
    inorder (rebalance t) = inorder t ∧
    (inorder (rotate_left t) : Multiset (α × NodeKind)) = (inorder t : Multiset (α × NodeKind)) ∧
    (inorder (rotate_right t) : Multiset (α × NodeKind)) = (inorder t : Multiset (α × NodeKind)) := by
  refine ⟨inorder_rotate_left t, inorder_rotate_right t, inorder_rebalance t, ?_, ?_⟩
  · rw [inorder_rotate_left]
  · rw [inorder_rotate_right]

/-! ### Code-level node model

The definitions below embed the code that is actually present in `src/`:
the node type tag, the node constructors of `src/unnamed/part_000`, and the
copy constructor of `src/unnamed/part_001`.  Pointers are modelled as
addresses (`Nat`) into a heap that is a list of node records, with the list
index as the address; a null pointer is `none`. -/

/-- The `RangedTreeNode::Type` enumeration of the source: `VALUE`,
`LESS_THAN`, `GREATER_THAN`. -/
inductive NType : Type where
  | VALUE : NType
  | LESS_THAN : NType
  | GREATER_THAN : NType
deriving DecidableEq, Repr

/-- A fully-initialized `RangedTreeNode` record: `_value`, `_node_type`,
`_tree_height`, `_parent`, `_left_child`, `_right_child`, with pointer
fields as optional heap addresses. -/
structure CNode (α : Type) : Type where
  value : Option α
  node_type : NType
  tree_height : Nat
  parent : Option Nat
  left_child : Option Nat
  right_child : Option Nat
deriving DecidableEq, Repr

/-- The fields of `RangedTreeNode` that the two-argument constructor in
`src/unnamed/part_000` initializes: only `_node_type` and `_value`. -/
structure NodeCtorFields (α : Type) : Type where
  value : Option α
  node_type : NType
deriving DecidableEq, Repr

/-- The two-argument node constructor
`RangedTreeNode(const Type node_type, const std::optional<T>& value)` from
`src/unnamed/part_000`: its initializer list stores `node_type` into
`_node_type` and `value` into `_value`, unconditionally. -/
def rangedTreeNodeCtor (node_type : NType) (value : Option α) : NodeCtorFields α :=
  { value := value, node_type := node_type }

/-- The one-argument constructor `RangedTreeNode(const T value)` from
`src/unnamed/part_000`, which delegates to the two-argument constructor with
the `VALUE` tag. -/
def rangedTreeNodeValueCtor (v : α) : NodeCtorFields α :=
  rangedTreeNodeCtor NType.VALUE (some v)

/-- The `value()` accessor of `RangedTreeNode`, which returns `_value`. -/
def nodeValue (n : NodeCtorFields α) : Option α :=
  n.value

/-- The fields of a node produced by the copy constructor of
`src/unnamed/part_001`.  The child-pointer fields are wrapped in an extra
`Option`: `none` means the constructor never executed an assignment to that
field (it is neither null nor a valid pointer), `some p` means the field was
assigned pointer value `p`. -/
structure CopiedNodeFields (α : Type) : Type where
  value : Option α
  node_type : NType
  tree_height : Nat
  parent : Option Nat
  left_child : Option (Option Nat)
  right_child : Option (Option Nat)
deriving DecidableEq, Repr

/-- The copy constructor `RangedTreeNode(const RangedTreeNode& other)` of
`src/unnamed/part_001`, one node level.  The initializer list copies
`_node_type`, `_value`, `_tree_height` and `_parent` (the parent pointer is
preserved as-is — the comment in the source reads "Preserve the parent.
Worst case it's unreachable").  The body assigns `_left_child` only inside
`if (other._left_child)` — to a freshly allocated recursive copy, whose
address is abstracted here as `leftCloneAddr` — and likewise for
`_right_child`; when a child of the source is absent the corresponding field
is never assigned. -/
def copyCtorFields (other : CNode α) (leftCloneAddr rightCloneAddr : Nat) :
    CopiedNodeFields α :=
  { value := other.value
    node_type := other.node_type
    tree_height := other.tree_height
    parent := other.parent
    left_child :=
      match other.left_child with
      | some _ => some (some leftCloneAddr)
      | none => none
    right_child :=
      match other.right_child with
      | some _ => some (some rightCloneAddr)
      | none => none }

omit [LinearOrder α] in
/-- C9: the two-argument node constructor stores the supplied optional value
unconditionally — `value()` returns it afterwards for every tag, including
`LESS_THAN` and `GREATER_THAN` — even though the constructor's documentation
says a value supplied with a non-`VALUE` tag is ignored. -/
theorem node_ctor_stores_value (node_type : NType) (v : Option α) :
    nodeValue (rangedTreeNodeCtor node_type v) = v ∧
    (rangedTreeNodeCtor node_type v).node_type = node_type :=
  ⟨rfl, rfl⟩

omit [LinearOrder α] in
/-- C10: in the node copy constructor, when the source's left (resp. right)
child is absent the clone's corresponding child field is never assigned —
neither to null nor to a fresh node — and only when the source child exists
is the field assigned the address of the recursive copy. -/
theorem copy_ctor_leaves_absent_children_unassigned
    (other : CNode α) (la ra : Nat) :
    (other.left_child = none → (copyCtorFields other la ra).left_child = none) ∧
    (other.right_child = none → (copyCtorFields other la ra).right_child = none) ∧
    (∀ a, other.left_child = some a →
      (copyCtorFields other la ra).left_child = some (some la)) ∧
    (∀ a, other.right_child = some a →
      (copyCtorFields other la ra).right_child = some (some ra)) := by
  refine ⟨?_, ?_, ?_, ?_⟩
  · intro h; simp [copyCtorFields, h]
  · intro h; simp [copyCtorFields, h]
  · intro a h; simp [copyCtorFields, h]
  · intro a h; simp [copyCtorFields, h]

/-- Witness for C10 at concrete inputs: a source node with an absent left
child and a present right child at address 7. -/
theorem copy_ctor_leaves_absent_children_unassigned_witness :
    ((⟨some 5, NType.VALUE, 1, none, none, some 7⟩ : CNode Nat).left_child = none →
      (copyCtorFields (⟨some 5, NType.VALUE, 1, none, none, some 7⟩ : CNode Nat) 3 4).left_child
        = none) ∧
    ((⟨some 5, NType.VALUE, 1, none, none, some 7⟩ : CNode Nat).right_child = none →
      (copyCtorFields (⟨some 5, NType.VALUE, 1, none, none, some 7⟩ : CNode Nat) 3 4).right_child
        = none) ∧
    (∀ a, (⟨some 5, NType.VALUE, 1, none, none, some 7⟩ : CNode Nat).left_child = some a →
      (copyCtorFields (⟨some 5, NType.VALUE, 1, none, none, some 7⟩ : CNode Nat) 3 4).left_child
        = some (some 3)) ∧
    (∀ a, (⟨some 5, NType.VALUE, 1, none, none, some 7⟩ : CNode Nat).right_child = some a →
      (copyCtorFields (⟨some 5, NType.VALUE, 1, none, none, some 7⟩ : CNode Nat) 3 4).right_child
        = some (some 4)) :=
  copy_ctor_leaves_absent_children_unassigned
    (⟨some 5, NType.VALUE, 1, none, none, some 7⟩ : CNode Nat) 3 4

/-! ### C8: move semantics -/

/-- C8: moving a tree transfers the root: the source is left empty, so
`contains(x)` on it is false for every `x`, while the destination returns
exactly the `contains(x)` result the source returned before the move. -/
theorem move_transfers_root (t : RTree α) (x : α) :
    contains x (moveTree t).2 = false ∧ contains x (moveTree t).1 = contains x t :=
  ⟨rfl, rfl⟩

/-! ### Sorted-list view of the tree

Insertion and lookup are related to sorted insertion into the in-order
`(key, kind)` sequence; the containment descent is related to the
predecessor/successor of `x` in that sequence. -/

/-- Sorted insertion of `(x, kd)` into a `(key, kind)` list: an existing
equal key is left untouched (the tree treats an equal key of the same kind
as a no-op and never reaches the list level with a differing kind). -/
def linsert (x : α) (kd : NodeKind) : List (α × NodeKind) → List (α × NodeKind)
  | [] => [(x, kd)]
  | (k, kk) :: rest =>
    if x = k then (k, kk) :: rest
    else if x < k then (x, kd) :: (k, kk) :: rest
    else (k, kk) :: linsert x kd rest

/-- Strictly increasing keys along a `(key, kind)` list. -/
def sortedPairs (l : List (α × NodeKind)) : Prop :=
  l.Pairwise (fun a b => a.1 < b.1)

omit [LinearOrder α] in
lemma allKeys_iff (p : α → Bool) (t : RTree α) :
    allKeys p t = true ↔ ∀ e ∈ inorder t, p e.1 = true := by
  induction t with
  | leaf => simp [allKeys, inorder]
  | node l k kd h r ihl ihr =>
    simp only [allKeys, Bool.and_eq_true, ihl, ihr, inorder, List.mem_append,
      List.mem_cons]
    constructor
    · rintro ⟨⟨hk, hl⟩, hr⟩ e he
      rcases he with he | he | he
      · exact hl e he
      · rw [he]
        exact hk
      · exact hr e he
    · intro hall
      exact ⟨⟨hall (k, kd) (Or.inr (Or.inl rfl)), fun e he => hall e (Or.inl he)⟩,
        fun e he => hall e (Or.inr (Or.inr he))⟩

lemma linsert_skip (x : α) (kd : NodeKind) :
    ∀ (l1 l2 : List (α × NodeKind)), (∀ e ∈ l1, e.1 < x) →
      linsert x kd (l1 ++ l2) = l1 ++ linsert x kd l2 := by
  intro l1
  induction l1 with
  | nil => intro l2 _; rfl
  | cons e rest ih =>
    intro l2 hall
    obtain ⟨k, kk⟩ := e
    have hk : k < x := hall (k, kk) (List.mem_cons_self _ _)
    have hne : ¬ x = k := (ne_of_gt hk)
    have hnlt : ¬ x < k := not_lt_of_gt hk
    simp only [List.cons_append, linsert, hne, hnlt, if_false]
    exact congrArg _ (ih l2 (fun e he => hall e (List.mem_cons_of_mem _ he)))

lemma linsert_stop (x k : α) (kd kk : NodeKind) (hxk : x < k) :
    ∀ (l1 l2 : List (α × NodeKind)),
      linsert x kd (l1 ++ (k, kk) :: l2) = linsert x kd l1 ++ (k, kk) :: l2 := by
  intro l1
  induction l1 with
  | nil =>
    intro l2
    simp [linsert, ne_of_lt hxk, hxk]
  | cons b rest ih =>
    intro l2
    obtain ⟨a, ak⟩ := b
    by_cases hxa : x = a
    · simp [linsert, hxa]
    · by_cases hlt : x < a
      · simp [linsert, hxa, hlt]
      · simp [linsert, hxa, hlt, ih]

lemma mem_linsert (x : α) (kd : NodeKind) :
    ∀ (l : List (α × NodeKind)) (e : α × NodeKind),
      e ∈ linsert x kd l → e = (x, kd) ∨ e ∈ l := by
  intro l
  induction l with
  | nil => intro e he; simp [linsert] at he; exact Or.inl he
  | cons b rest ih =>
    intro e he
    obtain ⟨a, ak⟩ := b
    by_cases hxa : x = a
    · simp only [linsert, hxa, if_pos rfl] at he
      exact Or.inr he
    · by_cases hlt : x < a
      · simp only [linsert, hxa, hlt, if_false, if_pos, List.mem_cons] at he
        rcases he with he | he
        · exact Or.inl he
        · exact Or.inr (List.mem_cons.mpr he)
      · simp only [linsert, hxa, hlt, if_false, List.mem_cons] at he
        rcases he with he | he
        · exact Or.inr (by rw [he]; exact List.mem_cons_self _ _)
        · rcases ih e he with h2 | h2
          · exact Or.inl h2
          · exact Or.inr (List.mem_cons_of_mem _ h2)

lemma linsert_mem (x : α) (kd : NodeKind) :
    ∀ (l : List (α × NodeKind)) (e : α × NodeKind), e ∈ l → e ∈ linsert x kd l := by
  intro l
  induction l with
  | nil => intro e he; cases he
  | cons b rest ih =>
    intro e he
    obtain ⟨a, ak⟩ := b
    by_cases hxa : x = a
    · simpa [linsert, hxa] using he
    · by_cases hlt : x < a
      · simp only [linsert, hxa, hlt, if_false, if_pos]
        exact List.mem_cons_of_mem _ he
      · simp only [linsert, hxa, hlt, if_false, List.mem_cons] at he ⊢
        rcases he with he | he
        · exact Or.inl he
        · exact Or.inr (ih e he)

lemma isBST_iff (t : RTree α) : isBST t = true ↔ sortedPairs (inorder t) := by
  induction t with
  | leaf =>
    simp [isBST, sortedPairs, inorder]
  | node l k kd h r ihl ihr =>
    simp only [isBST, Bool.and_eq_true, ihl, ihr, sortedPairs, inorder,
      List.pairwise_append, List.pairwise_cons, allKeys_iff, List.mem_cons,
      decide_eq_true_eq]
    constructor
    · rintro ⟨⟨⟨hal, har⟩, hsl⟩, hsr⟩
      refine ⟨hsl, ⟨fun b hb => har b hb, hsr⟩, ?_⟩
      intro a ha b hb
      rcases hb with hb | hb
      · rw [hb]
        exact hal a ha
      · exact lt_trans (hal a ha) (har b hb)
    · rintro ⟨hsl, ⟨hkr, hsr⟩, hcross⟩
      exact ⟨⟨⟨fun e he => hcross e he (k, kd) (Or.inl rfl), fun e he => hkr e he⟩, hsl⟩, hsr⟩

lemma linsert_sorted (x : α) (kd : NodeKind) :
    ∀ l : List (α × NodeKind), sortedPairs l → sortedPairs (linsert x kd l) := by
  intro l
  induction l with
  | nil =>
    intro _
    simp [linsert, sortedPairs]
  | cons b rest ih =>
    intro hs
    obtain ⟨k, kk⟩ := b
    have hk := (List.pairwise_cons.1 hs).1
    have hrest : sortedPairs rest := (List.pairwise_cons.1 hs).2
    by_cases hxk : x = k
    · simpa [linsert, hxk] using hs
    · by_cases hlt : x < k
      · simp only [linsert, hxk, hlt, if_false, if_pos]
        refine List.Pairwise.cons ?_ hs
        intro b hb
        rcases List.mem_cons.1 hb with hb | hb
        · rw [hb]
          exact hlt
        · exact lt_trans hlt (hk b hb)
      · have hgt : k < x :=
          lt_of_le_of_ne (not_lt.1 hlt) (fun hh => hxk hh.symm)
        simp only [linsert, hxk, hlt, if_false]
        refine List.Pairwise.cons ?_ (ih hrest)
        intro b hb
        rcases mem_linsert x kd rest b hb with hb2 | hb2
        · rw [hb2]
          exact hgt
        · exact hk b hb2

omit [LinearOrder α] in
lemma inorder_mkNode (l : RTree α) (k : α) (kd : NodeKind) (r : RTree α) :
    inorder (mkNode l k kd r) = inorder l ++ (k, kd) :: inorder r := rfl

lemma isBST_parts {l : RTree α} {k : α} {kk : NodeKind} {h : Nat} {r : RTree α}
    (hbst : isBST (RTree.node l k kk h r) = true) :
    (∀ e ∈ inorder l, e.1 < k) ∧ (∀ e ∈ inorder r, k < e.1) ∧
      isBST l = true ∧ isBST r = true := by
  simp only [isBST, Bool.and_eq_true, allKeys_iff, decide_eq_true_eq] at hbst
  exact ⟨hbst.1.1.1, hbst.1.1.2, hbst.1.2, hbst.2⟩

lemma insertNode_inorder (x : α) (kd : NodeKind) :
    ∀ (t : RTree α), isBST t = true →
      ∀ t2, insertNode x kd t = .ok t2 → inorder t2 = linsert x kd (inorder t) := by
  intro t
  induction t with
  | leaf =>
    intro _ t2 hins
    simp only [insertNode, Except.ok.injEq] at hins
    rw [← hins]
    rfl
  | node l k kk h r ihl ihr =>
    intro hbst t2 hins
    obtain ⟨hal, har, hbl, hbr⟩ := isBST_parts hbst
    by_cases hxk : x = k
    · subst hxk
      by_cases hkd : kd = kk
      · simp only [insertNode, if_pos rfl, if_pos hkd, if_true, Except.ok.injEq] at hins
        rw [← hins, inorder]
        rw [linsert_skip x kd (inorder l) ((x, kk) :: inorder r) hal]
        simp [linsert]
      · simp only [insertNode, if_pos rfl, if_neg hkd, if_true] at hins
        cases hins
    · by_cases hlt : x < k
      · simp only [insertNode, hxk, hlt, if_false, if_true] at hins
        cases hi : insertNode x kd l with
        | error e => rw [hi] at hins; cases hins
        | ok l2 =>
          rw [hi] at hins
          simp only [Except.ok.injEq] at hins
          rw [← hins, inorder_rebalance, inorder_mkNode,
            ihl hbl l2 hi, inorder, linsert_stop x k kd kk hlt]
      · have hgt : k < x :=
          lt_of_le_of_ne (not_lt.1 hlt) (fun hh => hxk hh.symm)
        simp only [insertNode, hxk, hlt, if_false] at hins
        cases hi : insertNode x kd r with
        | error e => rw [hi] at hins; cases hins
        | ok r2 =>
          rw [hi] at hins
          simp only [Except.ok.injEq] at hins
          rw [← hins, inorder_rebalance, inorder_mkNode, ihr hbr r2 hi, inorder]
          have hall : ∀ e ∈ inorder l ++ [(k, kk)], e.1 < x := by
            intro e he
            rcases List.mem_append.1 he with he | he
            · exact lt_trans (hal e he) hgt
            · rcases List.mem_singleton.1 he with rfl
              exact hgt
          have := linsert_skip x kd (inorder l ++ [(k, kk)]) (inorder r) hall
          simpa [List.append_assoc] using this.symm

lemma insertNode_isBST {x : α} {kd : NodeKind} {t t2 : RTree α}
    (hbst : isBST t = true) (hins : insertNode x kd t = .ok t2) :
    isBST t2 = true := by
  rw [isBST_iff] at hbst ⊢
  rw [insertNode_inorder x kd t ((isBST_iff t).2 hbst) t2 hins]
  exact linsert_sorted x kd _ hbst

lemma kindAt_iff_mem (x : α) {t : RTree α} (hbst : isBST t = true) (kd : NodeKind) :
    kindAt x t = some kd ↔ (x, kd) ∈ inorder t := by
  induction t with
  | leaf => simp [kindAt, inorder]
  | node l k kk h r ihl ihr =>
    obtain ⟨hal, har, hbl, hbr⟩ := isBST_parts hbst
    by_cases hxk : x = k
    · subst hxk
      simp only [kindAt, if_pos rfl, if_true, inorder, List.mem_append, List.mem_cons]
      constructor
      · intro hh
        rw [Option.some.injEq] at hh
        exact Or.inr (Or.inl (by rw [hh]))
      · intro hh
        rcases hh with hh | hh | hh
        · exact absurd (hal _ hh) (lt_irrefl x)
        · rw [Prod.mk.injEq] at hh
          rw [hh.2]
        · exact absurd (har _ hh) (lt_irrefl x)
    · by_cases hlt : x < k
      · simp only [kindAt, hxk, hlt, if_false, if_pos, ihl hbl, inorder,
          List.mem_append, List.mem_cons]
        constructor
        · intro hh
          exact Or.inl hh
        · intro hh
          rcases hh with hh | hh | hh
          · exact hh
          · rw [Prod.mk.injEq] at hh
            exact absurd hh.1 hxk
          · exact absurd (har _ hh) (not_lt_of_gt hlt)
      · have hgt : k < x :=
          lt_of_le_of_ne (not_lt.1 hlt) (fun hh => hxk hh.symm)
        simp only [kindAt, hxk, hlt, if_false, ihr hbr, inorder,
          List.mem_append, List.mem_cons]
        constructor
        · intro hh
          exact Or.inr (Or.inr hh)
        · intro hh
          rcases hh with hh | hh | hh
          · exact absurd (hal _ hh) (not_lt_of_gt hgt)
          · rw [Prod.mk.injEq] at hh
            exact absurd hh.1 hxk
          · exact hh

lemma findKey_eq_kindAt (x : α) (t : RTree α) :
    findKey x t = (kindAt x t).isSome := by
  induction t with
  | leaf => rfl
  | node l k kk h r ihl ihr =>
    by_cases hxk : x = k
    · simp [findKey, kindAt, hxk]
    · by_cases hlt : x < k
      · simp [findKey, kindAt, hxk, hlt, ihl]
      · simp [findKey, kindAt, hxk, hlt, ihr]

lemma insertNode_error_only {x : α} {kd : NodeKind} :
    ∀ {t : RTree α} {er : InsertError},
      insertNode x kd t = .error er → er = .overlappingRange := by
  intro t
  induction t with
  | leaf => intro er h; cases h
  | node l k kk h r ihl ihr =>
    intro er hins
    by_cases hxk : x = k
    · by_cases hkd : kd = kk
      · simp [insertNode, hxk, hkd] at hins
      · simp only [insertNode, hxk, if_pos rfl, if_neg hkd, if_true, Except.error.injEq] at hins
        exact hins.symm
    · by_cases hlt : x < k
      · simp only [insertNode, hxk, hlt, if_false, if_true] at hins
        cases hi : insertNode x kd l with
        | error e =>
          rw [hi] at hins
          simp only [Except.error.injEq] at hins
          rw [← hins]
          exact ihl hi
        | ok l2 => rw [hi] at hins; cases hins
      · simp only [insertNode, hxk, hlt, if_false] at hins
        cases hi : insertNode x kd r with
        | error e =>
          rw [hi] at hins
          simp only [Except.error.injEq] at hins
          rw [← hins]
          exact ihr hi
        | ok r2 => rw [hi] at hins; cases hins

lemma insertNode_error_iff (x : α) (kd : NodeKind) :
    ∀ t : RTree α,
      insertNode x kd t = .error .overlappingRange ↔
        ∃ kk, kindAt x t = some kk ∧ kk ≠ kd := by
  intro t
  induction t with
  | leaf => simp [insertNode, kindAt]
  | node l k kk h r ihl ihr =>
    by_cases hxk : x = k
    · by_cases hkd : kd = kk
      · simp [insertNode, hxk, hkd, kindAt]
      · simp [insertNode, hxk, hkd, kindAt]
        exact fun hh => hkd hh.symm
    · by_cases hlt : x < k
      · simp only [insertNode, hxk, hlt, if_false, if_pos, kindAt]
        cases hi : insertNode x kd l with
        | error e =>
          have he := insertNode_error_only hi
          subst he
          simpa [hi] using ihl
        | ok l2 =>
          rw [← ihl]
          simp [hi]
      · simp only [insertNode, hxk, hlt, if_false, kindAt]
        cases hi : insertNode x kd r with
        | error e =>
          have he := insertNode_error_only hi
          subst he
          simpa [hi] using ihr
        | ok r2 =>
          rw [← ihr]
          simp [hi]

/-- Whether `x` occurs as a key in a `(key, kind)` list. -/
def hasKeyList (x : α) (l : List (α × NodeKind)) : Bool :=
  l.any (fun e => decide (e.1 = x))

/-- The in-order predecessor entry of `x`: the last listed entry with key
less than `x`. -/
def predEntry (x : α) (l : List (α × NodeKind)) : Option (α × NodeKind) :=
  (l.filter (fun e => decide (e.1 < x))).getLast?

/-- The in-order successor entry of `x`: the first listed entry with key
greater than `x`. -/
def succEntry (x : α) (l : List (α × NodeKind)) : Option (α × NodeKind) :=
  (l.filter (fun e => decide (x < e.1))).head?

lemma omap_or {γ δ : Type} (f : γ → δ) (a b : Option γ) :
    (a.or b).map f = (a.map f).or (b.map f) := by
  cases a <;> rfl

lemma getLast?_cons_or {γ : Type} (a : γ) (l : List γ) :
    (a :: l).getLast? = l.getLast?.or (some a) := by
  cases l with
  | nil => rfl
  | cons b l2 =>
    rw [List.getLast?_cons_cons]
    cases hg : (b :: l2).getLast? with
    | none =>
      rw [List.getLast?_eq_none_iff] at hg
      cases hg
    | some c => rfl

lemma containsFrom_eq_list (x : α) :
    ∀ (t : RTree α), isBST t = true → ∀ (p s : Option NodeKind),
      containsFrom x t p s =
        (if hasKeyList x (inorder t) then true
         else
           fenceVerdict (((predEntry x (inorder t)).map Prod.snd).or p)
             (((succEntry x (inorder t)).map Prod.snd).or s)) := by
  intro t
  induction t with
  | leaf =>
    intro _ p s
    simp [containsFrom_leaf, inorder, hasKeyList, predEntry, succEntry]
  | node l k kd h r ihl ihr =>
    intro hbst p s
    obtain ⟨hal, har, hbl, hbr⟩ := isBST_parts hbst
    by_cases hxk : x = k
    · subst hxk
      have hk : hasKeyList x (inorder (RTree.node l x kd h r)) = true := by
        rw [hasKeyList, List.any_eq_true]
        exact ⟨(x, kd), by simp [inorder], by simp⟩
      simp [containsFrom, hk]
    · by_cases hlt : x < k
      · have hknex : decide (k = x) = false :=
          decide_eq_false (fun hh => hxk hh.symm)
        have hanyr : (inorder r).any (fun e => decide (e.1 = x)) = false := by
          rw [← Bool.not_eq_true, List.any_eq_true]
          rintro ⟨e, he, hdec⟩
          rw [decide_eq_true_eq] at hdec
          exact absurd (hdec ▸ har e he) (not_lt_of_gt hlt)
        have hkey : hasKeyList x (inorder (RTree.node l k kd h r)) =
            hasKeyList x (inorder l) := by
          simp [hasKeyList, inorder, hknex, hanyr]
        have hkltx : decide (k < x) = false :=
          decide_eq_false (not_lt_of_gt hlt)
        have hfr : (inorder r).filter (fun e => decide (e.1 < x)) = [] := by
          rw [List.filter_eq_nil_iff]
          intro e he
          rw [Bool.not_eq_true, decide_eq_false_iff_not]
          exact not_lt_of_gt (lt_trans hlt (har e he))
        have hpred : predEntry x (inorder (RTree.node l k kd h r)) =
            predEntry x (inorder l) := by
          simp [predEntry, inorder, List.filter_append, hkltx, hfr]
        have hsucc : succEntry x (inorder (RTree.node l k kd h r)) =
            (succEntry x (inorder l)).or (some (k, kd)) := by
          have hxk2 : decide (x < k) = true := decide_eq_true hlt
          simp [succEntry, inorder, List.filter_append, hxk2, List.head?_append]
        rw [containsFrom]
        simp only [hxk, hlt, if_false, if_true, ite_false, ite_true]
        rw [ihl hbl p (some kd), hkey, hpred, hsucc, omap_or]
        simp
        rw [Option.or_assoc, Option.or_some]
      · have hgt : k < x :=
          lt_of_le_of_ne (not_lt.1 hlt) (fun hh => hxk hh.symm)
        have hknex : decide (k = x) = false :=
          decide_eq_false (fun hh => hxk hh.symm)
        have hanyl : (inorder l).any (fun e => decide (e.1 = x)) = false := by
          rw [← Bool.not_eq_true, List.any_eq_true]
          rintro ⟨e, he, hdec⟩
          rw [decide_eq_true_eq] at hdec
          exact absurd (hdec ▸ hal e he) (not_lt_of_gt hgt)
        have hkey : hasKeyList x (inorder (RTree.node l k kd h r)) =
            hasKeyList x (inorder r) := by
          simp [hasKeyList, inorder, hknex, hanyl]
        have hfl : (inorder l).filter (fun e => decide (e.1 < x)) = inorder l := by
          rw [List.filter_eq_self]
          intro e he
          exact decide_eq_true (lt_trans (hal e he) hgt)
        have hkx2 : decide (k < x) = true := decide_eq_true hgt
        have hpred : predEntry x (inorder (RTree.node l k kd h r)) =
            (predEntry x (inorder r)).or (some (k, kd)) := by
          simp only [predEntry, inorder, List.filter_append, hfl,
            List.filter_cons, hkx2, if_true, List.getLast?_append,
            getLast?_cons_or]
          rw [Option.or_assoc, Option.or_some]
        have hxltk : decide (x < k) = false :=
          decide_eq_false (not_lt_of_gt hgt)
        have hfl2 : (inorder l).filter (fun e => decide (x < e.1)) = [] := by
          rw [List.filter_eq_nil_iff]
          intro e he
          rw [Bool.not_eq_true, decide_eq_false_iff_not]
          exact not_lt_of_gt (lt_trans (hal e he) hgt)
        have hsucc : succEntry x (inorder (RTree.node l k kd h r)) =
            succEntry x (inorder r) := by
          simp [succEntry, inorder, List.filter_append, hxltk, hfl2]
        rw [containsFrom]
        simp only [hxk, hlt, if_false, ite_false]
        rw [ihr hbr (some kd) s, hkey, hpred, hsucc, omap_or]
        simp
        rw [Option.or_assoc, Option.or_some]

/-- The `contains` verdict on a sorted list holding an uninterrupted run:
if `(s, LowerFence)` and `(e, UpperFence)` are listed, `s ≤ x ≤ e`, and no
listed key lies strictly between `s` and `e`, the verdict is true. -/
lemma sorted_getLast?_max {l : List (α × NodeKind)} (hs : sortedPairs l)
    {e : α × NodeKind} (he : e ∈ l) (hmax : ∀ b ∈ l, b.1 ≤ e.1) :
    l.getLast? = some e := by
  induction l with
  | nil => cases he
  | cons a rest ih =>
    have ha := (List.pairwise_cons.1 hs).1
    have hrest : sortedPairs rest := (List.pairwise_cons.1 hs).2
    cases rest with
    | nil =>
      rcases List.mem_singleton.1 he with rfl
      rfl
    | cons b rest2 =>
      rw [List.getLast?_cons_cons]
      rcases List.mem_cons.1 he with rfl | he2
      · have hb := ha b (List.mem_cons_self _ _)
        have hb2 := hmax b (List.mem_cons_of_mem _ (List.mem_cons_self _ _))
        exact absurd hb (not_lt_of_ge hb2)
      · exact ih hrest he2 (fun b hb => hmax b (List.mem_cons_of_mem _ hb))

lemma sorted_head?_min {l : List (α × NodeKind)} (hs : sortedPairs l)
    {e : α × NodeKind} (he : e ∈ l) (hmin : ∀ b ∈ l, e.1 ≤ b.1) :
    l.head? = some e := by
  cases l with
  | nil => cases he
  | cons a rest =>
    have ha := (List.pairwise_cons.1 hs).1
    rcases List.mem_cons.1 he with rfl | he2
    · rfl
    · have h1 := ha e he2
      have h2 := hmin a (List.mem_cons_self _ _)
      exact absurd h1 (not_lt_of_ge h2)

lemma listVerdict_run {x s e : α} {l : List (α × NodeKind)} (hs : sortedPairs l)
    (hsl : (s, NodeKind.lowerFence) ∈ l) (hel : (e, NodeKind.upperFence) ∈ l)
    (hsx : s ≤ x) (hxe : x ≤ e)
    (hnone : ∀ b ∈ l, ¬ (s < b.1 ∧ b.1 < e)) :
    (if hasKeyList x l then true
     else
       fenceVerdict ((predEntry x l).map Prod.snd)
         ((succEntry x l).map Prod.snd)) = true := by
  by_cases hk : hasKeyList x l = true
  · simp [hk]
  · have hxnotkey : ∀ b ∈ l, b.1 ≠ x := by
      intro b hb hbx
      exact hk (List.any_eq_true.2 ⟨b, hb, decide_eq_true hbx⟩)
    have hsx2 : s < x := lt_of_le_of_ne hsx (fun hh => hxnotkey _ hsl hh)
    have hxe2 : x < e := lt_of_le_of_ne hxe (fun hh => hxnotkey _ hel hh.symm)
    have hpred : predEntry x l = some (s, NodeKind.lowerFence) := by
      refine sorted_getLast?_max (List.Pairwise.filter _ hs) ?_ ?_
      · rw [List.mem_filter]
        exact ⟨hsl, decide_eq_true hsx2⟩
      · intro b hb
        rw [List.mem_filter] at hb
        have hbx : b.1 < x := of_decide_eq_true hb.2
        by_contra hbs
        exact hnone b hb.1 ⟨lt_of_not_ge hbs, lt_of_lt_of_le hbx hxe⟩
    have hsucc : succEntry x l = some (e, NodeKind.upperFence) := by
      refine sorted_head?_min (List.Pairwise.filter _ hs) ?_ ?_
      · rw [List.mem_filter]
        exact ⟨hel, decide_eq_true hxe2⟩
      · intro b hb
        rw [List.mem_filter] at hb
        have hbx : x < b.1 := of_decide_eq_true hb.2
        by_contra hbe
        exact hnone b hb.1 ⟨lt_of_le_of_lt hsx hbx, lt_of_not_ge hbe⟩
    simp [hk, hpred, hsucc, fenceVerdict]

lemma insertEntry_isBST {ent : Entry α} {t t2 : RTree α}
    (hbst : isBST t = true) (h : insertEntry ent t = .ok t2) : isBST t2 = true := by
  cases ent with
  | single v => exact insertNode_isBST hbst h
  | ranged s e =>
    simp only [insertEntry] at h
    by_cases hse : e < s
    · simp [hse] at h
    · simp only [hse, if_false, ite_false] at h
      cases h1 : insertNode s .lowerFence t with
      | error er => rw [h1] at h; cases h
      | ok t1 =>
        rw [h1] at h
        dsimp only at h
        cases h2 : insertNode e .upperFence t1 with
        | error er => rw [h2] at h; cases h
        | ok t2x =>
          rw [h2] at h
          simp only [Except.ok.injEq] at h
          rw [← h]
          exact insertNode_isBST (insertNode_isBST hbst h1) h2

lemma insertEntry_mem {ent : Entry α} {t t2 : RTree α} (hbst : isBST t = true)
    (h : insertEntry ent t = .ok t2) :
    ∀ e ∈ inorder t, e ∈ inorder t2 := by
  cases ent with
  | single v =>
    intro e he
    rw [insertNode_inorder v .point t hbst t2 h]
    exact linsert_mem _ _ _ _ he
  | ranged s en =>
    simp only [insertEntry] at h
    by_cases hse : en < s
    · simp [hse] at h
    · simp only [hse, if_false, ite_false] at h
      cases h1 : insertNode s .lowerFence t with
      | error er => rw [h1] at h; cases h
      | ok t1 =>
        rw [h1] at h
        dsimp only at h
        cases h2 : insertNode en .upperFence t1 with
        | error er => rw [h2] at h; cases h
        | ok t2x =>
          rw [h2] at h
          simp only [Except.ok.injEq] at h
          rw [← h]
          intro e he
          rw [insertNode_inorder en .upperFence t1 (insertNode_isBST hbst h1) t2x h2]
          refine linsert_mem _ _ _ _ ?_
          rw [insertNode_inorder s .lowerFence t hbst t1 h1]
          exact linsert_mem _ _ _ _ he

lemma insertTree_isBST (ent : Entry α) {t : RTree α} (hbst : isBST t = true) :
    isBST (insertTree ent t) = true := by
  rw [insertTree]
  cases h : insertEntry ent t with
  | ok t2 => exact insertEntry_isBST hbst h
  | error er => exact hbst

lemma insertTree_mem (ent : Entry α) {t : RTree α} (hbst : isBST t = true) :
    ∀ e ∈ inorder t, e ∈ inorder (insertTree ent t) := by
  rw [insertTree]
  cases h : insertEntry ent t with
  | ok t2 => exact insertEntry_mem hbst h
  | error er => exact fun e he => he

lemma applyInserts_isBST (es : List (Entry α)) :
    ∀ {t : RTree α}, isBST t = true → isBST (applyInserts es t) = true := by
  induction es with
  | nil => intro t h; exact h
  | cons ent rest ih =>
    intro t h
    exact ih (insertTree_isBST ent h)

lemma applyInserts_mem (es : List (Entry α)) :
    ∀ {t : RTree α}, isBST t = true →
      ∀ e ∈ inorder t, e ∈ inorder (applyInserts es t) := by
  induction es with
  | nil => intro t _ e he; exact he
  | cons ent rest ih =>
    intro t h e he
    exact ih (insertTree_isBST ent h) e (insertTree_mem ent h e he)

/-! ### C2: persistence of membership -/

/-- Counterexample to C2 as stated: over `Nat`, insert the validated range
`(1, 6)` into the empty tree; `contains 4 = true`.  Then the point insert of
3 succeeds (no key collision), and in that subsequent state `contains 4`
has become false — membership inside a validated inserted range does not
persist across all later successful insertions. -/
theorem contains_not_persistent_cex :
    Except.isOk (insertEntry (Entry.ranged 1 6) (RTree.leaf : RTree Nat)) = true ∧
    (1 : Nat) ≤ 4 ∧ (4 : Nat) ≤ 6 ∧
    contains 4 (insertTree (Entry.ranged 1 6) (RTree.leaf : RTree Nat)) = true ∧
    Except.isOk (insertEntry (Entry.single 3)
      (insertTree (Entry.ranged 1 6) (RTree.leaf : RTree Nat))) = true ∧
    contains 4 (insertTree (Entry.single 3)
      (insertTree (Entry.ranged 1 6) (RTree.leaf : RTree Nat))) = false := by
  decide

/-- C2 (amended): membership persists in the following form.  (a) Any value
whose key is present in the tree (a point insert, or an exact fence key)
satisfies `contains = true` in every subsequent tree state — keys are never
removed and an exact hit always wins.  (b) For a range `[s, e]` whose
fences are present (`s`: LowerFence, `e`: UpperFence), every `x` with
`s ≤ x ≤ e` satisfies `contains x = true` in every subsequent state in
which no key lies strictly between `s` and `e`; the unrestricted claim is
false because a later (or pre-existing) overlapping insertion may place a
key strictly inside `(s, e)` — resolving overlaps is the caller's
responsibility (spec §1). -/
theorem contains_persistence_amended (t : RTree α) (es : List (Entry α)) (x : α)
    (hbst : isBST t = true) :
    (∀ kd, kindAt x t = some kd → contains x (applyInserts es t) = true) ∧
    (∀ s e : α, kindAt s t = some NodeKind.lowerFence →
      kindAt e t = some NodeKind.upperFence → s ≤ x → x ≤ e →
      ((inorder (applyInserts es t)).all
        fun b => !(decide (s < b.1) && decide (b.1 < e))) = true →
      contains x (applyInserts es t) = true) := by
  have hbst2 := applyInserts_isBST es hbst
  constructor
  · intro kd hkd
    have hmem := (kindAt_iff_mem x hbst kd).1 hkd
    have hmem2 := applyInserts_mem es hbst _ hmem
    rw [contains, containsFrom_eq_list x _ hbst2 none none]
    have hkey : hasKeyList x (inorder (applyInserts es t)) = true :=
      List.any_eq_true.2 ⟨(x, kd), hmem2, decide_eq_true rfl⟩
    simp [hkey]
  · intro s e hs he hsx hxe hnone
    have hmems := applyInserts_mem es hbst _ ((kindAt_iff_mem s hbst _).1 hs)
    have hmeme := applyInserts_mem es hbst _ ((kindAt_iff_mem e hbst _).1 he)
    rw [contains, containsFrom_eq_list x _ hbst2 none none]
    have hnone2 : ∀ b ∈ inorder (applyInserts es t), ¬ (s < b.1 ∧ b.1 < e) := by
      intro b hb hc
      have hthis := List.all_eq_true.1 hnone b hb
      simp [hc.1, hc.2] at hthis
    have hrun := listVerdict_run ((isBST_iff _).1 hbst2) hmems hmeme hsx hxe hnone2
    simpa [Option.or_none] using hrun

/-- Witness for C2 (amended) at concrete inputs over `Nat`: after inserting
the range `(1, 6)` and then the point 10, both parts apply — 4 lies in the
run `[1, 6]` with nothing inserted inside it, and key 1 itself is present. -/
theorem contains_persistence_amended_witness :
    contains 4 (applyInserts [Entry.single 10]
      (insertTree (Entry.ranged 1 6) (RTree.leaf : RTree Nat))) = true ∧
    contains 1 (applyInserts [Entry.single 10]
      (insertTree (Entry.ranged 1 6) (RTree.leaf : RTree Nat))) = true :=
  ⟨(contains_persistence_amended (insertTree (Entry.ranged 1 6) RTree.leaf)
      [Entry.single 10] 4 (by decide)).2 1 6 (by decide) (by decide) (by decide)
      (by decide) (by decide),
   (contains_persistence_amended (insertTree (Entry.ranged 1 6) RTree.leaf)
      [Entry.single 10] 1 (by decide)).1 NodeKind.lowerFence (by decide)⟩

/-! ### C3: cross-kind key collisions -/

/-- C3: an insertion whose key collides with an existing node of a different
kind fails with `OverlappingRangeError`, and a failed insertion leaves the
tree exactly as before the call, so every `contains` result (including the
inclusive hit on a pre-existing fence key) is unchanged; for a range entry
the failure is all-or-nothing whichever boundary collides. -/
theorem insert_overlap_all_or_nothing :
    (∀ (t : RTree α) (ent : Entry α),
        insertEntry ent t = .error .overlappingRange →
          insertTree ent t = t ∧
          ∀ x, contains x (insertTree ent t) = contains x t) ∧
    (∀ (t : RTree α) (v : α) (kk : NodeKind), kindAt v t = some kk →
        kk ≠ NodeKind.point →
        insertEntry (Entry.single v) t = .error .overlappingRange) ∧
    (∀ (t : RTree α) (s e : α) (kk : NodeKind), ¬ e < s →
        kindAt s t = some kk → kk ≠ NodeKind.lowerFence →
        insertEntry (Entry.ranged s e) t = .error .overlappingRange) ∧
    (∀ (t : RTree α) (s e : α) (kk : NodeKind), isBST t = true → ¬ e < s →
        kindAt e t = some kk → kk ≠ NodeKind.upperFence →
        insertEntry (Entry.ranged s e) t = .error .overlappingRange) := by
  refine ⟨?_, ?_, ?_, ?_⟩
  · intro t ent herr
    have hT : insertTree ent t = t := by simp [insertTree, herr]
    exact ⟨hT, fun x => by rw [hT]⟩
  · intro t v kk hk hne
    exact (insertNode_error_iff v NodeKind.point t).2 ⟨kk, hk, hne⟩
  · intro t s e kk hse hk hne
    have h1 : insertNode s .lowerFence t = .error .overlappingRange :=
      (insertNode_error_iff s NodeKind.lowerFence t).2 ⟨kk, hk, hne⟩
    simp [insertEntry, hse, h1]
  · intro t s e kk hbst hse hk hne
    cases h1 : insertNode s .lowerFence t with
    | error er =>
      have her := insertNode_error_only h1
      subst her
      simp [insertEntry, hse, h1]
    | ok t1 =>
      have hbst1 := insertNode_isBST hbst h1
      have hmem : (e, kk) ∈ inorder t := (kindAt_iff_mem e hbst kk).1 hk
      have hmem1 : (e, kk) ∈ inorder t1 := by
        rw [insertNode_inorder s .lowerFence t hbst t1 h1]
        exact linsert_mem _ _ _ _ hmem
      have hk1 : kindAt e t1 = some kk := (kindAt_iff_mem e hbst1 kk).2 hmem1
      have h2 : insertNode e .upperFence t1 = .error .overlappingRange :=
        (insertNode_error_iff e NodeKind.upperFence t1).2 ⟨kk, hk1, hne⟩
      simp [insertEntry, hse, h1, h2]

/-- Witness for C3 at the spec's concrete scenario (over `Nat`, with
`'a'..'d'` as 1..4): after inserting the range `(1, 4)`, the point insert of
4 hits the `UpperFence` at 4, fails with `OverlappingRangeError`, leaves the
tree untouched, and `contains 4` remains true. -/
theorem insert_overlap_all_or_nothing_witness :
    insertEntry (Entry.single 4)
      (insertTree (Entry.ranged 1 4) (RTree.leaf : RTree Nat)) =
      .error .overlappingRange ∧
    insertTree (Entry.single 4)
      (insertTree (Entry.ranged 1 4) (RTree.leaf : RTree Nat)) =
      insertTree (Entry.ranged 1 4) (RTree.leaf : RTree Nat) ∧
    contains 4 (insertTree (Entry.single 4)
      (insertTree (Entry.ranged 1 4) (RTree.leaf : RTree Nat))) =
      contains 4 (insertTree (Entry.ranged 1 4) (RTree.leaf : RTree Nat)) ∧
    contains 4 (insertTree (Entry.ranged 1 4) (RTree.leaf : RTree Nat)) = true := by
  have herr := insert_overlap_all_or_nothing.2.1
    (insertTree (Entry.ranged 1 4) (RTree.leaf : RTree Nat)) 4 NodeKind.upperFence
    (by decide) (by decide)
  have hun := insert_overlap_all_or_nothing.1
    (insertTree (Entry.ranged 1 4) (RTree.leaf : RTree Nat)) (Entry.single 4) herr
  exact ⟨herr, hun.1, hun.2 4, by decide⟩

/-! ### C5: the AVL invariants survive insertion -/

omit [LinearOrder α] in
lemma heightsOk_node {l r : RTree α} {k : α} {kd : NodeKind} {h : Nat} :
    heightsOk (RTree.node l k kd h r) = true ↔
      h = 1 + max (height l) (height r) ∧ heightsOk l = true ∧ heightsOk r = true := by
  simp only [heightsOk, Bool.and_eq_true, beq_iff_eq]
  tauto

omit [LinearOrder α] in
lemma balancedB_node {l r : RTree α} {k : α} {kd : NodeKind} {h : Nat} :
    balancedB (RTree.node l k kd h r) = true ↔
      height l ≤ height r + 1 ∧ height r ≤ height l + 1 ∧
        balancedB l = true ∧ balancedB r = true := by
  simp only [balancedB, Bool.and_eq_true, decide_eq_true_eq]
  tauto

omit [LinearOrder α] in
lemma height_node (l : RTree α) (k : α) (kd : NodeKind) (h : Nat) (r : RTree α) :
    height (RTree.node l k kd h r) = h := rfl

omit [LinearOrder α] in
lemma height_leaf : height (RTree.leaf : RTree α) = 0 := rfl

omit [LinearOrder α] in
lemma rebalance_avl (l r : RTree α) (k : α) (kd : NodeKind)
    (hlOk : heightsOk l = true) (hrOk : heightsOk r = true)
    (hlB : balancedB l = true) (hrB : balancedB r = true)
    (hd1 : height l ≤ height r + 2) (hd2 : height r ≤ height l + 2) :
    heightsOk (rebalance (mkNode l k kd r)) = true ∧
    balancedB (rebalance (mkNode l k kd r)) = true ∧
    max (height l) (height r) ≤ height (rebalance (mkNode l k kd r)) ∧
    height (rebalance (mkNode l k kd r)) ≤ 1 + max (height l) (height r) ∧
    (height l ≤ height r + 1 → height r ≤ height l + 1 →
      height (rebalance (mkNode l k kd r)) = 1 + max (height l) (height r)) := by
  rw [mkNode]
  simp only [rebalance]
  by_cases hc1 : height l + 1 < height r
  · rw [if_pos hc1]
    cases r with
    | leaf => rw [height_leaf] at hc1; omega
    | node rl rk rkd rh rr =>
      obtain ⟨hrh, hOkrl, hOkrr⟩ := heightsOk_node.1 hrOk
      obtain ⟨hbr1, hbr2, hBrl, hBrr⟩ := balancedB_node.1 hrB
      simp only [height_node] at hc1 hd1 hd2 ⊢
      by_cases hc2 : height rr < height rl
      · rw [if_pos hc2]
        cases rl with
        | leaf => rw [height_leaf] at hc2; omega
        | node rll rlk rlkd rlh rlr =>
          obtain ⟨hrlh, hOkrll, hOkrlr⟩ := heightsOk_node.1 hOkrl
          obtain ⟨hbrl1, hbrl2, hBrll, hBrlr⟩ := balancedB_node.1 hBrl
          simp only [height_node] at hc2 hrh hbr1 hbr2 ⊢
          simp only [rotate_right, rotate_left, mkNode, height_node]
          refine ⟨?_, ?_, ?_, ?_, ?_⟩
          · simp only [heightsOk_node, height_node]
            repeat' apply And.intro
            all_goals first | assumption | trivial
          · simp only [balancedB_node, height_node]
            repeat' apply And.intro
            all_goals first | assumption | trivial | omega
          · omega
          · omega
          · intro hq1 hq2
            omega
      · rw [if_neg hc2]
        simp only [rotate_left, mkNode, height_node]
        refine ⟨?_, ?_, ?_, ?_, ?_⟩
        · simp only [heightsOk_node, height_node]
          repeat' apply And.intro
          all_goals first | assumption | trivial
        · simp only [balancedB_node, height_node]
          repeat' apply And.intro
          all_goals first | assumption | trivial | omega
        · omega
        · omega
        · intro hq1 hq2
          omega
  · rw [if_neg hc1]
    by_cases hc3 : height r + 1 < height l
    · rw [if_pos hc3]
      cases l with
      | leaf => rw [height_leaf] at hc3; omega
      | node ll lk lkd lh lr =>
        obtain ⟨hlh, hOkll, hOklr⟩ := heightsOk_node.1 hlOk
        obtain ⟨hbl1, hbl2, hBll, hBlr⟩ := balancedB_node.1 hlB
        simp only [height_node] at hc1 hc3 hd1 hd2 ⊢
        by_cases hc4 : height ll < height lr
        · rw [if_pos hc4]
          cases lr with
          | leaf => rw [height_leaf] at hc4; omega
          | node lrl lrk lrkd lrh lrr =>
            obtain ⟨hlrh, hOklrl, hOklrr⟩ := heightsOk_node.1 hOklr
            obtain ⟨hblr1, hblr2, hBlrl, hBlrr⟩ := balancedB_node.1 hBlr
            simp only [height_node] at hc4 hlh hbl1 hbl2 ⊢
            simp only [rotate_left, rotate_right, mkNode, height_node]
            refine ⟨?_, ?_, ?_, ?_, ?_⟩
            · simp only [heightsOk_node, height_node]
              repeat' apply And.intro
              all_goals first | assumption | trivial
            · simp only [balancedB_node, height_node]
              repeat' apply And.intro
              all_goals first | assumption | trivial | omega
            · omega
            · omega
            · intro hq1 hq2
              omega
        · rw [if_neg hc4]
          simp only [rotate_right, mkNode, height_node]
          refine ⟨?_, ?_, ?_, ?_, ?_⟩
          · simp only [heightsOk_node, height_node]
            repeat' apply And.intro
            all_goals first | assumption | trivial
          · simp only [balancedB_node, height_node]
            repeat' apply And.intro
            all_goals first | assumption | trivial | omega
          · omega
          · omega
          · intro hq1 hq2
            omega
    · rw [if_neg hc3]
      refine ⟨?_, ?_, ?_, ?_, ?_⟩
      · rw [heightsOk_node]
        exact ⟨rfl, hlOk, hrOk⟩
      · rw [balancedB_node]
        exact ⟨by omega, by omega, hlB, hrB⟩
      · rw [height_node]
        omega
      · rw [height_node]
      · intro hq1 hq2
        rw [height_node]

omit [LinearOrder α] in
lemma max_cases_nat (a b : Nat) : (max a b = a ∧ b ≤ a) ∨ (max a b = b ∧ a ≤ b) := by
  rcases Nat.le_total a b with h | h
  · right
    exact ⟨max_eq_right h, h⟩
  · left
    exact ⟨max_eq_left h, h⟩

omit [LinearOrder α] in
lemma height_bound_after {u v u2 X H : Nat}
    (hh : H = 1 + max u v)
    (hb1 : u ≤ v + 1) (hb2 : v ≤ u + 1)
    (hg1 : u2 ≤ u + 1) (hg2 : u ≤ u2 + 1)
    (hcl : max u2 v ≤ X) (hcu : X ≤ 1 + max u2 v)
    (hex : u2 ≤ v + 1 → v ≤ u2 + 1 → X = 1 + max u2 v) :
    X ≤ H + 1 ∧ H ≤ X + 1 := by
  by_cases hx1 : u2 ≤ v + 1
  · by_cases hx2 : v ≤ u2 + 1
    · have hXe := hex hx1 hx2
      rcases max_cases_nat u2 v with ⟨he, hle⟩ | ⟨he, hle⟩ <;>
        rcases max_cases_nat u v with ⟨he2, hle2b⟩ | ⟨he2, hle2b⟩ <;>
        rw [he] at hXe <;> rw [he2] at hh <;> omega
    · rcases max_cases_nat u2 v with ⟨he, hle⟩ | ⟨he, hle⟩ <;>
        rcases max_cases_nat u v with ⟨he2, hle2b⟩ | ⟨he2, hle2b⟩ <;>
        rw [he] at hcl hcu <;> rw [he2] at hh <;> omega
  · rcases max_cases_nat u2 v with ⟨he, hle⟩ | ⟨he, hle⟩ <;>
      rcases max_cases_nat u v with ⟨he2, hle2b⟩ | ⟨he2, hle2b⟩ <;>
      rw [he] at hcl hcu <;> rw [he2] at hh <;> omega

lemma insertNode_avl (x : α) (kd : NodeKind) :
    ∀ (t : RTree α), heightsOk t = true → balancedB t = true →
      ∀ t2, insertNode x kd t = .ok t2 →
        heightsOk t2 = true ∧ balancedB t2 = true ∧
        height t2 ≤ height t + 1 ∧ height t ≤ height t2 + 1 := by
  intro t
  induction t with
  | leaf =>
    intro _ _ t2 h
    simp only [insertNode, Except.ok.injEq] at h
    rw [← h]
    refine ⟨?_, ?_, ?_, ?_⟩
    · rw [heightsOk_node]
      exact ⟨rfl, rfl, rfl⟩
    · rw [balancedB_node]
      exact ⟨by simp [height_leaf], by simp [height_leaf], rfl, rfl⟩
    · rw [height_node, height_leaf]
    · rw [height_node, height_leaf]
      omega
  | node l k kk h r ihl ihr =>
    intro hOk hB t2 hins
    obtain ⟨hh, hOkl, hOkr⟩ := heightsOk_node.1 hOk
    obtain ⟨hb1, hb2, hBl, hBr⟩ := balancedB_node.1 hB
    by_cases hxk : x = k
    · by_cases hkd : kd = kk
      · simp only [insertNode, hxk, if_pos rfl, if_pos hkd, if_true,
          Except.ok.injEq] at hins
        rw [← hins]
        exact ⟨heightsOk_node.2 ⟨hh, hOkl, hOkr⟩,
          balancedB_node.2 ⟨hb1, hb2, hBl, hBr⟩, by omega, by omega⟩
      · simp [insertNode, hxk, hkd] at hins
    · by_cases hlt : x < k
      · simp only [insertNode, hxk, hlt, if_false, if_true] at hins
        cases hi : insertNode x kd l with
        | error e => rw [hi] at hins; cases hins
        | ok l2 =>
          rw [hi] at hins
          simp only [Except.ok.injEq] at hins
          obtain ⟨hOk2, hB2, hle1, hle2⟩ := ihl hOkl hBl l2 hi
          rw [← hins]
          obtain ⟨ha, hb, hcl, hcu, hex⟩ :=
            rebalance_avl l2 r k kk hOk2 hOkr hB2 hBr (by omega) (by omega)
          obtain ⟨hu, hv⟩ := height_bound_after hh hb1 hb2 hle1 hle2 hcl hcu hex
          exact ⟨ha, hb, by rw [height_node]; exact hu, by rw [height_node]; exact hv⟩
      · simp only [insertNode, hxk, hlt, if_false] at hins
        cases hi : insertNode x kd r with
        | error e => rw [hi] at hins; cases hins
        | ok r2 =>
          rw [hi] at hins
          simp only [Except.ok.injEq] at hins
          obtain ⟨hOk2, hB2, hle1, hle2⟩ := ihr hOkr hBr r2 hi
          rw [← hins]
          obtain ⟨ha, hb, hcl, hcu, hex⟩ :=
            rebalance_avl l r2 k kk hOkl hOk2 hBl hB2 (by omega) (by omega)
          rw [Nat.max_comm (height l) (height r2)] at hcl hcu
          have hex2 : height r2 ≤ height l + 1 → height l ≤ height r2 + 1 →
              height (rebalance (mkNode l k kk r2)) = 1 + max (height r2) (height l) := by
            intro h1 h2
            rw [Nat.max_comm (height r2) (height l)]
            exact hex h2 h1
          have hh2 : h = 1 + max (height r) (height l) := by
            rw [hh, Nat.max_comm]
          obtain ⟨hu, hv⟩ := height_bound_after hh2 hb2 hb1 hle1 hle2 hcl hcu hex2
          exact ⟨ha, hb, by rw [height_node]; exact hu, by rw [height_node]; exact hv⟩

lemma insertEntry_avl {ent : Entry α} {t t2 : RTree α}
    (hOk : heightsOk t = true) (hB : balancedB t = true)
    (h : insertEntry ent t = .ok t2) :
    heightsOk t2 = true ∧ balancedB t2 = true := by
  cases ent with
  | single v =>
    obtain ⟨h1, h2, _, _⟩ := insertNode_avl v .point t hOk hB t2 h
    exact ⟨h1, h2⟩
  | ranged s e =>
    simp only [insertEntry] at h
    by_cases hse : e < s
    · simp [hse] at h
    · simp only [hse, if_false, ite_false] at h
      cases h1 : insertNode s .lowerFence t with
      | error er => rw [h1] at h; cases h
      | ok t1 =>
        rw [h1] at h
        dsimp only at h
        cases h2 : insertNode e .upperFence t1 with
        | error er => rw [h2] at h; cases h
        | ok t2x =>
          rw [h2] at h
          simp only [Except.ok.injEq] at h
          rw [← h]
          obtain ⟨ha1, ha2, _, _⟩ := insertNode_avl s .lowerFence t hOk hB t1 h1
          obtain ⟨hb1, hb2, _, _⟩ := insertNode_avl e .upperFence t1 ha1 ha2 t2x h2
          exact ⟨hb1, hb2⟩

omit [LinearOrder α] in
lemma balance_factor_le_of_balanced {t : RTree α} (hB : balancedB t = true) :
    (balance_factor t).natAbs ≤ 1 := by
  cases t with
  | leaf => simp [balance_factor]
  | node l k kd h r =>
    obtain ⟨h1, h2, _, _⟩ := balancedB_node.1 hB
    simp only [balance_factor]
    omega

/-- C5: after every insert (successful or failed), every node of the tree
satisfies the AVL invariant `|height(right) − height(left)| ≤ 1` (in
particular the root's `balance_factor` has absolute value at most 1), and
every node's stored height equals `1 + max(height(left), height(right))`
with an absent child counted as height 0 — so a freshly created leaf node
carries height 1. -/
theorem insert_preserves_avl (ent : Entry α) (t : RTree α)
    (hOk : heightsOk t = true) (hB : balancedB t = true) :
    heightsOk (insertTree ent t) = true ∧
    balancedB (insertTree ent t) = true ∧
    (balance_factor (insertTree ent t)).natAbs ≤ 1 := by
  rw [insertTree]
  cases h : insertEntry ent t with
  | ok t2 =>
    obtain ⟨h1, h2⟩ := insertEntry_avl hOk hB h
    exact ⟨h1, h2, balance_factor_le_of_balanced h2⟩
  | error er => exact ⟨hOk, hB, balance_factor_le_of_balanced hB⟩

/-- Witness for C5 at a concrete input: inserting point 5 and then the
range `(2, 9)` into the empty tree over `Nat`. -/
theorem insert_preserves_avl_witness :
    (heightsOk (insertTree (Entry.ranged 2 9)
        (insertTree (Entry.single 5) (RTree.leaf : RTree Nat))) = true ∧
      balancedB (insertTree (Entry.ranged 2 9)
        (insertTree (Entry.single 5) (RTree.leaf : RTree Nat))) = true ∧
      (balance_factor (insertTree (Entry.ranged 2 9)
        (insertTree (Entry.single 5) (RTree.leaf : RTree Nat)))).natAbs ≤ 1) :=
  insert_preserves_avl (Entry.ranged 2 9)
    (insertTree (Entry.single 5) (RTree.leaf : RTree Nat)) (by decide) (by decide)

/-! ### Heap model for tree copy (C7)

A heap is a list of `CNode` records; the list index is the node's address.
`extract` reads the abstract `(value, type, height)`-shape of the subtree
reachable from an address; `allocTree` writes a fresh clone of such a shape
at the end of the heap.  The tree-level copy constructor has only a
declaration in `src/` (`RangedTree.hpp:345`), so the copy operation is
modelled from the spec; the node-level copy constructor that is present in
`src/unnamed/part_001` clones children recursively but preserves the
source's parent pointers, and the spec (§4.5) has the tree-level copy fix
every parent up afterwards ("parent of clone = clone of original parent;
root's parent is absent"), which is the state `allocTree` produces. -/

/-- Abstract shape of a node subtree: the per-node data `(value, type,
height)` without the pointer fields. -/
inductive ATree (β : Type) : Type where
  | leaf : ATree β
  | node : ATree β → Option β → NType → Nat → ATree β → ATree β
deriving DecidableEq, Repr

variable {β : Type}

/-- Depth of an abstract shape. -/
def depth : ATree β → Nat
  | .leaf => 0
  | .node l _ _ _ r => 1 + max (depth l) (depth r)

/-- Read the abstract shape of the subtree rooted at an address, following
child pointers; `none` on a dangling pointer or when the fuel is exhausted
(a cycle).  A null root yields the empty shape. -/
def extract (hp : List (CNode β)) : Nat → Option Nat → Option (ATree β)
  | _, none => some .leaf
  | 0, some _ => none
  | fuel + 1, some a =>
    match hp[a]? with
    | none => none
    | some n =>
      match extract hp fuel n.left_child, extract hp fuel n.right_child with
      | some tl, some tr => some (.node tl n.value n.node_type n.tree_height tr)
      | _, _ => none

/-- Modelled from the spec: allocate a clone of an abstract shape at the end
of the heap, with every clone's parent pointer set to the clone of the
original parent (spec §4.5 parent fix-up; the given `parent` is the clone
root's parent, absent for the tree root).  Returns the extended heap and the
address of the clone root. -/
def allocTree (hp : List (CNode β)) (parent : Option Nat) :
    ATree β → List (CNode β) × Option Nat
  | .leaf => (hp, none)
  | .node tl v ty ht tr =>
    let a := hp.length
    let hp1 := hp ++ [⟨v, ty, ht, parent, none, none⟩]
    let p1 := allocTree hp1 (some a) tl
    let p2 := allocTree p1.1 (some a) tr
    (p2.1.set a ⟨v, ty, ht, parent, p1.2, p2.2⟩, some a)

/-- Modelled from the spec: the tree-level copy (spec §4.5) — read the
source subtree's shape, then allocate a fresh deep clone of it with parent
pointers recomputed and the clone root's parent absent. -/
def treeCopy (hp : List (CNode β)) (root : Option Nat) :
    List (CNode β) × Option Nat :=
  match extract hp (hp.length + 1) root with
  | none => (hp, none)
  | some t => allocTree hp none t

/-- `ClonedAt hp lo parent r t`: in heap `hp`, address `r` roots a subtree of
shape `t` whose node addresses all lie at or above `lo`, whose root node's
parent field is `parent`, and in which every child's parent field is the
address of its actual parent node. -/
inductive ClonedAt (hp : List (CNode β)) (lo : Nat) :
    Option Nat → Option Nat → ATree β → Prop where
  | leaf (parent : Option Nat) : ClonedAt hp lo parent none ATree.leaf
  | node {parent : Option Nat} {a : Nat} {v : Option β} {ty : NType} {ht : Nat}
      {la ra : Option Nat} {tl tr : ATree β} :
      lo ≤ a →
      hp[a]? = some ⟨v, ty, ht, parent, la, ra⟩ →
      ClonedAt hp lo (some a) la tl →
      ClonedAt hp lo (some a) ra tr →
      ClonedAt hp lo parent (some a) (ATree.node tl v ty ht tr)

lemma ClonedAt_mono_lo {hp : List (CNode β)} {lo lo2 : Nat} {p r : Option Nat}
    {t : ATree β} (hlo : lo2 ≤ lo) (h : ClonedAt hp lo p r t) :
    ClonedAt hp lo2 p r t := by
  induction h with
  | leaf parent => exact .leaf parent
  | node ha hg hl hr ihl ihr => exact .node (le_trans hlo ha) hg ihl ihr

lemma ClonedAt_stable {hp hp2 : List (CNode β)} {lo : Nat} {p r : Option Nat}
    {t : ATree β}
    (hagree : ∀ (i : Nat) (n : CNode β), lo ≤ i → hp[i]? = some n → hp2[i]? = some n)
    (h : ClonedAt hp lo p r t) : ClonedAt hp2 lo p r t := by
  induction h with
  | leaf parent => exact .leaf parent
  | node ha hg hl hr ihl ihr => exact .node ha (hagree _ _ ha hg) ihl ihr

lemma extract_stable {hp hp2 : List (CNode β)}
    (hagree : ∀ (i : Nat) (n : CNode β), hp[i]? = some n → hp2[i]? = some n) :
    ∀ (fuel : Nat) (r : Option Nat) (t : ATree β),
      extract hp fuel r = some t → extract hp2 fuel r = some t := by
  intro fuel
  induction fuel with
  | zero =>
    intro r t h
    cases r with
    | none => exact h
    | some a => simp [extract] at h
  | succ fuel ih =>
    intro r t h
    cases r with
    | none => exact h
    | some a =>
      simp only [extract] at h ⊢
      cases hg : hp[a]? with
      | none => rw [hg] at h; exact absurd h (by simp)
      | some n =>
        rw [hg] at h
        rw [hagree a n hg]
        dsimp only at h ⊢
        cases hl : extract hp fuel n.left_child with
        | none => rw [hl] at h; exact absurd h (by simp)
        | some tl =>
          cases hr : extract hp fuel n.right_child with
          | none => rw [hl, hr] at h; exact absurd h (by simp)
          | some tr =>
            rw [hl, hr] at h
            rw [ih _ _ hl, ih _ _ hr]
            exact h

lemma allocTree_length_le (t : ATree β) :
    ∀ (hp : List (CNode β)) (parent : Option Nat),
      hp.length ≤ (allocTree hp parent t).1.length := by
  induction t with
  | leaf => intro hp parent; exact le_refl _
  | node tl v ty ht tr ihl ihr =>
    intro hp parent
    simp only [allocTree, List.length_set]
    calc hp.length ≤ (hp ++ [(⟨v, ty, ht, parent, none, none⟩ : CNode β)]).length := by
          simp
      _ ≤ _ := le_trans (ihl _ _) (ihr _ _)

lemma allocTree_agree_below (t : ATree β) :
    ∀ (hp : List (CNode β)) (parent : Option Nat) (i : Nat), i < hp.length →
      (allocTree hp parent t).1[i]? = hp[i]? := by
  induction t with
  | leaf => intro hp parent i hi; rfl
  | node tl v ty ht tr ihl ihr =>
    intro hp parent i hi
    simp only [allocTree]
    have hne : hp.length ≠ i := Nat.ne_of_gt hi
    rw [List.getElem?_set_ne hne]
    have hi1 : i < (hp ++ [(⟨v, ty, ht, parent, none, none⟩ : CNode β)]).length := by
      simp; omega
    have hi2 : i <
        (allocTree (hp ++ [(⟨v, ty, ht, parent, none, none⟩ : CNode β)]) (some hp.length) tl).1.length :=
      lt_of_lt_of_le hi1 (allocTree_length_le tl _ _)
    rw [ihr _ _ _ hi2, ihl _ _ _ hi1]
    exact List.getElem?_append_left hi

lemma allocTree_cloned (t : ATree β) :
    ∀ (hp : List (CNode β)) (parent : Option Nat),
      ClonedAt (allocTree hp parent t).1 hp.length parent (allocTree hp parent t).2 t := by
  induction t with
  | leaf => intro hp parent; exact .leaf parent
  | node tl v ty ht tr ihl ihr =>
    intro hp parent
    simp only [allocTree]
    have hlen1 : hp.length < (hp ++ [(⟨v, ty, ht, parent, none, none⟩ : CNode β)]).length := by
      simp
    have hlen2 :
        (hp ++ [(⟨v, ty, ht, parent, none, none⟩ : CNode β)]).length ≤
          (allocTree (hp ++ [(⟨v, ty, ht, parent, none, none⟩ : CNode β)])
            (some hp.length) tl).1.length :=
      allocTree_length_le tl _ _
    have hlen3 :
        (allocTree (hp ++ [(⟨v, ty, ht, parent, none, none⟩ : CNode β)])
            (some hp.length) tl).1.length ≤
          (allocTree (allocTree (hp ++ [(⟨v, ty, ht, parent, none, none⟩ : CNode β)])
            (some hp.length) tl).1 (some hp.length) tr).1.length :=
      allocTree_length_le tr _ _
    have c1 := ihl (hp ++ [(⟨v, ty, ht, parent, none, none⟩ : CNode β)]) (some hp.length)
    have c2 := ihr (allocTree (hp ++ [(⟨v, ty, ht, parent, none, none⟩ : CNode β)])
      (some hp.length) tl).1 (some hp.length)
    refine ClonedAt.node (le_refl hp.length)
      (List.getElem?_set_self (lt_of_lt_of_le hlen1 (le_trans hlen2 hlen3))) ?_ ?_
    · refine ClonedAt_mono_lo (by simp) (ClonedAt_stable ?_ c1)
      intro i n hi hsome
      have hine : hp.length ≠ i := by omega
      rw [List.getElem?_set_ne hine]
      have hilt : i <
          (allocTree (hp ++ [(⟨v, ty, ht, parent, none, none⟩ : CNode β)])
            (some hp.length) tl).1.length := by
        rcases List.getElem?_eq_some_iff.1 hsome with ⟨hlt, _⟩; exact hlt
      rw [allocTree_agree_below tr _ _ i hilt]
      exact hsome
    · refine ClonedAt_mono_lo (le_trans (le_of_lt hlen1) hlen2) (ClonedAt_stable ?_ c2)
      intro i n hi hsome
      have hine : hp.length ≠ i := by
        have : hp.length < i := lt_of_lt_of_le (lt_of_lt_of_le hlen1 hlen2) hi
        omega
      rw [List.getElem?_set_ne hine]
      exact hsome

lemma extract_depth_le {hp : List (CNode β)} :
    ∀ (fuel : Nat) (r : Option Nat) (t : ATree β),
      extract hp fuel r = some t → depth t ≤ fuel := by
  intro fuel
  induction fuel with
  | zero =>
    intro r t h
    cases r with
    | none =>
      simp only [extract] at h
      cases h
      simp [depth]
    | some a => simp [extract] at h
  | succ fuel ih =>
    intro r t h
    cases r with
    | none =>
      simp only [extract] at h
      cases h
      simp [depth]
    | some a =>
      simp only [extract] at h
      cases hg : hp[a]? with
      | none => rw [hg] at h; exact absurd h (by simp)
      | some n =>
        rw [hg] at h
        dsimp only at h
        cases hl : extract hp fuel n.left_child with
        | none => rw [hl] at h; exact absurd h (by simp)
        | some tl =>
          cases hr : extract hp fuel n.right_child with
          | none => rw [hl, hr] at h; exact absurd h (by simp)
          | some tr =>
            rw [hl, hr] at h
            cases h
            have h1 := ih _ _ hl
            have h2 := ih _ _ hr
            simp only [depth]
            omega

lemma ClonedAt_extract {hp : List (CNode β)} {lo : Nat} {p r : Option Nat}
    {t : ATree β} (h : ClonedAt hp lo p r t) :
    ∀ fuel : Nat, depth t < fuel → extract hp fuel r = some t := by
  induction h with
  | leaf parent =>
    intro fuel hf
    cases fuel with
    | zero => exact rfl
    | succ f => exact rfl
  | node ha hg hcl hcr ihl ihr =>
    intro fuel hf
    cases fuel with
    | zero => exact absurd hf (by simp)
    | succ f =>
      simp only [depth] at hf
      simp only [extract]
      rw [hg]
      dsimp only
      rw [ihl f (by omega), ihr f (by omega)]

/-- C7: the tree-level copy deep-clones every node: the clone has exactly the
source subtree's `(value, type, height)` shape, lives entirely at fresh
addresses (at or above the pre-copy heap size, so no node is shared with the
source), and has every clone's parent pointer recomputed to the clone of the
original parent with the clone root's parent absent (`ClonedAt` packages
those three facts); the copy writes nothing below the pre-copy heap size;
and any later heap state that leaves the addresses below the pre-copy heap
size intact — as any mutation acting through the copy does, since the
copy's nodes all live above it — still extracts the original tree
unchanged, so every `contains` result computed from the original root is
unchanged. -/
theorem tree_copy_deep_clone_frame (hp : List (CNode β)) (root : Option Nat)
    (t : ATree β) (hx : extract hp (hp.length + 1) root = some t) :
    ClonedAt (treeCopy hp root).1 hp.length none (treeCopy hp root).2 t ∧
    extract (treeCopy hp root).1 (hp.length + 2) (treeCopy hp root).2 = some t ∧
    (∀ i : Nat, i < hp.length → (treeCopy hp root).1[i]? = hp[i]?) ∧
    (∀ hp2 : List (CNode β), (∀ i : Nat, i < hp.length → hp2[i]? = hp[i]?) →
      extract hp2 (hp.length + 1) root = some t) := by
  have htc : treeCopy hp root = allocTree hp none t := by
    simp [treeCopy, hx]
  rw [htc]
  have hc := allocTree_cloned t hp none
  refine ⟨hc, ?_, ?_, ?_⟩
  · refine ClonedAt_extract hc (hp.length + 2) ?_
    have := extract_depth_le (hp.length + 1) root t hx
    omega
  · intro i hi
    exact allocTree_agree_below t hp none i hi
  · intro hp2 hagree
    refine extract_stable ?_ (hp.length + 1) root t hx
    intro i n hin
    have hilt : i < hp.length := by
      rcases List.getElem?_eq_some_iff.1 hin with ⟨hlt, _⟩
      exact hlt
    rw [hagree i hilt]
    exact hin

/-- Witness for C7 at a concrete input: a one-node heap over `Nat` whose
root holds value 5. -/
theorem tree_copy_deep_clone_frame_witness :
    ClonedAt
      (treeCopy [(⟨some 5, NType.VALUE, 1, none, none, none⟩ : CNode Nat)] (some 0)).1 1 none
      (treeCopy [(⟨some 5, NType.VALUE, 1, none, none, none⟩ : CNode Nat)] (some 0)).2
      (ATree.node ATree.leaf (some 5) NType.VALUE 1 ATree.leaf) ∧
    extract (treeCopy [(⟨some 5, NType.VALUE, 1, none, none, none⟩ : CNode Nat)] (some 0)).1 3
      (treeCopy [(⟨some 5, NType.VALUE, 1, none, none, none⟩ : CNode Nat)] (some 0)).2 =
      some (ATree.node ATree.leaf (some 5) NType.VALUE 1 ATree.leaf) ∧
    (∀ i : Nat, i < 1 →
      (treeCopy [(⟨some 5, NType.VALUE, 1, none, none, none⟩ : CNode Nat)] (some 0)).1[i]? =
        [(⟨some 5, NType.VALUE, 1, none, none, none⟩ : CNode Nat)][i]?) ∧
    (∀ hp2 : List (CNode Nat),
      (∀ i : Nat, i < 1 →
        hp2[i]? = [(⟨some 5, NType.VALUE, 1, none, none, none⟩ : CNode Nat)][i]?) →
      extract hp2 2 (some 0) =
        some (ATree.node ATree.leaf (some 5) NType.VALUE 1 ATree.leaf)) :=
  tree_copy_deep_clone_frame [(⟨some 5, NType.VALUE, 1, none, none, none⟩ : CNode Nat)]
    (some 0) (ATree.node ATree.leaf (some 5) NType.VALUE 1 ATree.leaf) (by rfl)

end XRegex
